import Mathlib

/-!
Shallow embedding of `ballnspring/conductivity.py` (repository `ajkerr0/eflow`)
and verification of its specification.

Matrices are modelled as total functions `ℕ → ℕ → F` over a field `F` with
decidable equality.  The Python code works with IEEE complex floats; exact
arithmetic over an arbitrary field — instantiated at `ℚ` for all concrete
evaluations — captures the algebra, and `ℂ` is an instance of the same
development.  Array shapes are carried separately as natural-number
parameters, and the places where numpy raises (out-of-range diagonal writes,
shape-mismatched concatenation, singular linear systems) are modelled by
explicit checks returning `Except`.
-/

namespace Eflow

variable {F : Type} [Field F] [DecidableEq F]

/-- `np.zeros` as a total function matrix. -/
def zerosM : ℕ → ℕ → F := fun _ _ => 0

/-- `np.identity`. -/
def identityM : ℕ → ℕ → F := fun r c => if r = c then 1 else 0

/-- `np.concatenate((A, B), axis=1)` where `A` has `n` columns. -/
def hconcat (n : ℕ) (A B : ℕ → ℕ → F) : ℕ → ℕ → F :=
  fun r c => if c < n then A r c else B r (c - n)

/-- `np.concatenate((A, B), axis=0)` where `A` has `n` rows. -/
def vconcat (n : ℕ) (A B : ℕ → ℕ → F) : ℕ → ℕ → F :=
  fun r c => if r < n then A r c else B (r - n) c

/-- `np.dot` with inner dimension `n`. -/
def matmulN (n : ℕ) (A B : ℕ → ℕ → F) : ℕ → ℕ → F :=
  fun r c => ∑ s ∈ Finset.range n, A r s * B s c

/-- The row slice `A[:n, :]`; rows at or past `n` are out of range in numpy
and are given the junk value `0` here. -/
def rowslice (n : ℕ) (A : ℕ → ℕ → F) : ℕ → ℕ → F :=
  fun r c => if r < n then A r c else 0

/-- A single diagonal write `g[p, p] = v` on a matrix. -/
def writeDiag (A : ℕ → ℕ → F) (p : ℕ) (v : F) : ℕ → ℕ → F :=
  fun r c => if r = p ∧ c = p then v else A r c

/-- `np.sum` of an `n × n` array. -/
def npSum (n : ℕ) (A : ℕ → ℕ → F) : F :=
  ∑ r ∈ Finset.range n, ∑ c ∈ Finset.range n, A r c

/-- `np.repeat(m, dim)`: entry `t` is `m[t / dim]`. -/
def npRepeat (m : ℕ → F) (dim : ℕ) : ℕ → F := fun t => m (t / dim)

/-- `np.diag` of a vector. -/
def npDiag (v : ℕ → F) : ℕ → ℕ → F := fun r c => if r = c then v r else 0

/-- `np.true_divide` under `np.errstate(divide="ignore", invalid="ignore")`
followed by `arr[~np.isfinite(arr)] = 0`: in exact arithmetic the quotient is
non-finite exactly when the denominator vanishes, and those entries become
`0`. -/
def trueDivideReg (x y : F) : F := if y = 0 then 0 else x / y

/-- `_calculate_gamma_mat(dim, N, gamma, drivers)`: starting from
`np.zeros((dim*N, dim*N))`, for each `driver` of `np.hstack(drivers)` and each
`i in range(dim)` it writes `gmat[3*driver + i, 3*driver + i] = gamma`.  The
stride `3` is literal in the source; `N` only fixes the array shape. -/
def calculate_gamma_mat (dim N : ℕ) (gamma : F) (drivers : List (List ℕ)) :
    ℕ → ℕ → F :=
  drivers.flatten.foldl
    (fun g driver =>
      (List.range dim).foldl (fun g i => writeDiag g (3 * driver + i) gamma) g)
    zerosM

/-- The numpy bounds condition for the diagonal writes of
`_calculate_gamma_mat` into its `dim*N × dim*N` array; a violation raises
`IndexError` in the source. -/
def gammaWritesOk (dim N : ℕ) (drivers : List (List ℕ)) : Bool :=
  drivers.flatten.all fun driver =>
    (List.range dim).all fun i => 3 * driver + i < dim * N

/-- In `kappa`: `m = np.diag(np.repeat(m, dim))`. -/
def massMatrix (dim : ℕ) (m : ℕ → F) : ℕ → ℕ → F := npDiag (npRepeat m dim)

/-- In `_calculate_power`: `val_sigma = np.tile(val, (n, 1))`,
`val_tau = np.transpose(val_sigma)`, and
`valterm = np.true_divide(val_sigma - val_tau, val_sigma + val_tau)` with
non-finite entries then replaced by `0`.  Entry `(r, c)` is the regularized
`(val[c] - val[r]) / (val[c] + val[r])`. -/
def valtermMat (val : ℕ → F) : ℕ → ℕ → F :=
  fun r c => trueDivideReg (val c - val r) (val c + val r)

/-- The array `termArr = kMatrix[3*i+idim, 3*j+jdim] * term1 * term2 * term3
* term4 * valterm` of `_calculate_power` for one driven atom `d`, where
`term1[r, c] = coeff[c, 3d] + coeff[c, 3d+1] + coeff[c, 3d+2]` (the row
`coeff[:, 3d] + coeff[:, 3d+1] + coeff[:, 3d+2]` tiled), `term2` its
transpose, `term3[r, c] = vec[3*i+idim, c]` and `term4[r, c] =
vec[3*j+jdim, r]`. -/
def powerTermArr (i j idim jdim d : ℕ) (val : ℕ → F)
    (vec coeff kMatrix : ℕ → ℕ → F) : ℕ → ℕ → F :=
  fun r c =>
    kMatrix (3 * i + idim) (3 * j + jdim)
      * (coeff c (3 * d) + coeff c (3 * d + 1) + coeff c (3 * d + 2))
      * (coeff r (3 * d) + coeff r (3 * d + 1) + coeff r (3 * d + 2))
      * vec (3 * i + idim) c
      * vec (3 * j + jdim) r
      * valtermMat val r c

/-- `_calculate_power(i, j, dim, val, vec, coeff, kMatrix, driverList)`:
`driver1 = driverList[1]`, `n = len(val)` (passed explicitly here), and the
accumulation `kappa += np.sum(termArr)` over `idim` and `jdim` in
`range(dim)` and `driver` in `driver1`. -/
def calculate_power (i j dim n : ℕ) (val : ℕ → F)
    (vec coeff kMatrix : ℕ → ℕ → F) (driverList : List (List ℕ)) : F :=
  ∑ idim ∈ Finset.range dim, ∑ jdim ∈ Finset.range dim,
    ((driverList.getD 1 []).map fun d =>
      npSum n (powerTermArr i j idim jdim d val vec coeff kMatrix)).sum

/-- `_calculate_power_loop(i, j, dim, val, vec, coeff, kMatrix, driverList)`:
the scalar nested-loop variant.  `nval = len(val)` is passed explicitly,
`n = len(val)//2`, both mode sums run over `range(2*n)`, the coefficient sum
for `sigma` is written in the order `3*driver+1, 3*driver+2, 3*driver`, and
the eigenvector factors read the row slice `vec[:n,:]`.  The scalar division
is unregularized (its divide-by-zero branch only prints). -/
def calculate_power_loop (i j dim nval : ℕ) (val : ℕ → F)
    (vec coeff kMatrix : ℕ → ℕ → F) (driverList : List (List ℕ)) : F :=
  ∑ idim ∈ Finset.range dim, ∑ jdim ∈ Finset.range dim,
    ((driverList.getD 1 []).map fun d =>
      ∑ sigma ∈ Finset.range (2 * (nval / 2)),
        ∑ tau ∈ Finset.range (2 * (nval / 2)),
          kMatrix (3 * i + idim) (3 * j + jdim)
            * ((coeff sigma (3 * d + 1) + coeff sigma (3 * d + 2)
                  + coeff sigma (3 * d))
              * (coeff tau (3 * d) + coeff tau (3 * d + 1)
                  + coeff tau (3 * d + 2))
              * rowslice (nval / 2) vec (3 * i + idim) sigma
              * rowslice (nval / 2) vec (3 * j + jdim) tau
              * ((val sigma - val tau) / (val sigma + val tau)))).sum

/-- View the top-left `n × n` corner of a function matrix as a Mathlib
matrix. -/
def toFin (n : ℕ) (A : ℕ → ℕ → F) : Matrix (Fin n) (Fin n) F :=
  Matrix.of fun i j => A i.val j.val

/-- View the top-left `n × p` corner of a function matrix as a Mathlib
matrix. -/
def toFinRect (n p : ℕ) (A : ℕ → ℕ → F) : Matrix (Fin n) (Fin p) F :=
  Matrix.of fun i j => A i.val j.val

/-- The value returned by a successful `np.linalg.solve(A, B)` for an
`n × n` system with `p` right-hand sides: `A⁻¹ B`, written with the explicit
inverse `det⁻¹ • adjugate` so the definition is executable. -/
def linalgSolveVal (n p : ℕ) (A B : ℕ → ℕ → F) : ℕ → ℕ → F :=
  fun r c =>
    if hr : r < n then
      if hc : c < p then
        (((toFin n A).det)⁻¹ • ((toFin n A).adjugate * toFinRect n p B))
          ⟨r, hr⟩ ⟨c, hc⟩
      else 0
    else 0

/-- `np.linalg.solve(A, B)`: raises `LinAlgError` on a singular `A`,
modelled as `Except.error`. -/
def linalgSolve (n p : ℕ) (A B : ℕ → ℕ → F) : Except String (ℕ → ℕ → F) :=
  if (toFin n A).det = 0 then Except.error "singular matrix"
  else Except.ok (linalgSolveVal n p A B)

/-- The system matrix `A` of `_calculate_coeff`, with `N = len(vec)//2`:
`A = np.zeros((2N, 2N))`, `A[:N,:] = vec[:N,:]`, then
`A[N:,:] = np.multiply(A[:N,:], np.dot(massMat, lamda) + np.dot(gMat,
np.ones((N, 2N))))` where `lamda = np.tile(val, (N, 1))`. -/
def coeffA (N : ℕ) (val : ℕ → F) (vec massMat gMat : ℕ → ℕ → F) :
    ℕ → ℕ → F :=
  vconcat N (rowslice N vec)
    (fun r c =>
      rowslice N vec r c
        * (matmulN N massMat (fun _ cc => val cc) r c
          + matmulN N gMat (fun _ _ => 1) r c))

/-- `B = np.concatenate((np.zeros((N, N)), np.identity(N)), axis=0)` in
`_calculate_coeff`. -/
def coeffB (N : ℕ) : ℕ → ℕ → F := vconcat N zerosM identityM

/-- `_calculate_coeff(val, vec, massMat, gMat)` with `N = len(vec)//2`
passed explicitly: builds `A` and `B` and returns
`np.linalg.solve(A, B)`. -/
def calculate_coeff (N : ℕ) (val : ℕ → F) (vec massMat gMat : ℕ → ℕ → F) :
    Except String (ℕ → ℕ → F) :=
  linalgSolve (2 * N) N (coeffA N val vec massMat gMat) (coeffB N)

/-- The left matrix `c` of `_calculate_thermal_evec`, with `N = len(M)`:
`a = np.concatenate((np.zeros([N,N]), np.identity(N)), axis=1)`,
`b = np.concatenate((K, G), axis=1)`, `c = np.concatenate((a, b), axis=0)`. -/
def thermalEvecLeft (N : ℕ) (K G : ℕ → ℕ → F) : ℕ → ℕ → F :=
  vconcat N (hconcat N zerosM identityM) (hconcat N K G)

/-- The right matrix `z` of `_calculate_thermal_evec`:
`x = np.concatenate((np.identity(N), np.zeros([N,N])), axis=1)`,
`y = np.concatenate((np.zeros([N,N]), -M), axis=1)`,
`z = np.concatenate((x, y), axis=0)`. -/
def thermalEvecRight (N : ℕ) (M : ℕ → ℕ → F) : ℕ → ℕ → F :=
  vconcat N (hconcat N identityM zerosM)
    (hconcat N zerosM (fun r c => -(M r c)))

/-- The type of the external generalized eigensolver `scipy.linalg.eig(c,
b=z, right=True)`, given the problem size `2N` is determined by `N`: it
receives the two block matrices and returns complex eigenvalues and right
eigenvectors.  It is third-party LAPACK code, so it is a parameter of the
embedding. -/
def EigSolver (F : Type) : Type :=
  ℕ → (ℕ → ℕ → F) → (ℕ → ℕ → F) → (ℕ → F) × (ℕ → ℕ → F)

/-- `_calculate_thermal_evec(K, G, M)` with `N = len(M)` passed explicitly:
forms the two block matrices and hands them to the external solver. -/
def calculate_thermal_evec (N : ℕ) (K G M : ℕ → ℕ → F) (eig : EigSolver F) :
    (ℕ → F) × (ℕ → ℕ → F) :=
  eig N (thermalEvecLeft N K G) (thermalEvecRight N M)

/-- The eigen-data `(val, vec)` computed inside `kappa`:
`dim = len(k)//len(m)`, `g = _calculate_gamma_mat(dim, len(m), gamma,
drivers)`, `m = np.diag(np.repeat(m, dim))`,
`val, vec = _calculate_thermal_evec(k, g, m)` with `len(m_matrix) =
dim*len(m)`.  `mn = len(m)`, `kn = len(k)`. -/
def kappaEigData (mn kn : ℕ) (m : ℕ → F) (k : ℕ → ℕ → F)
    (drivers : List (List ℕ)) (gamma : F) (eig : EigSolver F) :
    (ℕ → F) × (ℕ → ℕ → F) :=
  calculate_thermal_evec (kn / mn * mn) k
    (calculate_gamma_mat (kn / mn) mn gamma drivers)
    (massMatrix (kn / mn) m) eig

/-- The coefficient solve inside `kappa`:
`coeff = _calculate_coeff(val, vec, m, g)` with `len(vec)//2 =
dim*len(m)`. -/
def kappaCoeff (mn kn : ℕ) (m : ℕ → F) (k : ℕ → ℕ → F)
    (drivers : List (List ℕ)) (gamma : F) (eig : EigSolver F) :
    Except String (ℕ → ℕ → F) :=
  calculate_coeff (kn / mn * mn)
    (kappaEigData mn kn m k drivers gamma eig).1
    (kappaEigData mn kn m k drivers gamma eig).2
    (massMatrix (kn / mn) m)
    (calculate_gamma_mat (kn / mn) mn gamma drivers)

/-- `kappa(m, k, drivers, crossings, gamma=10.)`, the entry point, with
`mn = len(m)` and `kn = len(k)`; `dim = len(k)//len(m)` is floor division.
The two guards model exactly where numpy raises on malformed shapes: the
diagonal writes of `_calculate_gamma_mat` (`IndexError`) and
`np.concatenate((K, G), axis=1)` inside `_calculate_thermal_evec`, which
needs `len(k)` and `dim*len(m)` rows to agree (`ValueError`); a singular
coefficient system then propagates (`LinAlgError`).  On success the result
is the loop `kappa = 0.; for i, j in crossings: kappa +=
_calculate_power(i, j, dim, val, vec, coeff, k, drivers)` with
`len(val) = 2*dim*len(m)`. -/
def kappa (mn kn : ℕ) (m : ℕ → F) (k : ℕ → ℕ → F) (drivers : List (List ℕ))
    (crossings : List (ℕ × ℕ)) (gamma : F) (eig : EigSolver F) :
    Except String F :=
  if ¬ gammaWritesOk (kn / mn) mn drivers then
    Except.error "index out of bounds"
  else if kn ≠ kn / mn * mn then Except.error "dimension mismatch"
  else
    (kappaCoeff mn kn m k drivers gamma eig).map fun coeff =>
      crossings.foldl
        (fun acc ij =>
          acc + calculate_power ij.1 ij.2 (kn / mn) (2 * (kn / mn * mn))
            (kappaEigData mn kn m k drivers gamma eig).1
            (kappaEigData mn kn m k drivers gamma eig).2 coeff k drivers)
        0

theorem foldl_writeDiag (v : F) (L : List ℕ) (g : ℕ → ℕ → F) (r c : ℕ) :
    (L.foldl (fun g p => writeDiag g p v) g) r c
      = if r = c ∧ r ∈ L then v else g r c := by
  induction L generalizing g with
  | nil => simp
  | cons p L ih =>
    rw [List.foldl_cons, ih]
    by_cases hrc : r = c
    · subst hrc
      by_cases hm : r ∈ L <;> by_cases hp : r = p <;>
        simp [hm, hp, writeDiag]
    · have hnp : ¬(r = p ∧ c = p) := fun h => hrc (h.1.trans h.2.symm)
      simp [hrc, writeDiag, hnp]

theorem foldl_writeDiag_range (dim d : ℕ) (γ : F) (g : ℕ → ℕ → F) (r c : ℕ) :
    ((List.range dim).foldl (fun g i => writeDiag g (3 * d + i) γ) g) r c
      = if r = c ∧ ∃ i ∈ List.range dim, r = 3 * d + i then γ else g r c := by
  rw [← List.foldl_map (fun i => 3 * d + i) (fun g p => writeDiag g p γ)]
  rw [foldl_writeDiag]
  have hmem : (r ∈ (List.range dim).map fun i => 3 * d + i)
      ↔ ∃ i ∈ List.range dim, r = 3 * d + i := by
    simp only [List.mem_map, List.mem_range]
    constructor
    · rintro ⟨a, ha, hr⟩
      exact ⟨a, ha, hr.symm⟩
    · rintro ⟨a, ha, hr⟩
      exact ⟨a, ha, hr.symm⟩
  simp only [hmem]

theorem foldl_gamma_writes (dim : ℕ) (γ : F) (L : List ℕ) (g : ℕ → ℕ → F)
    (r c : ℕ) :
    (L.foldl
        (fun g d =>
          (List.range dim).foldl (fun g i => writeDiag g (3 * d + i) γ) g)
        g) r c
      = if r = c ∧ ∃ d ∈ L, ∃ i ∈ List.range dim, r = 3 * d + i then γ
        else g r c := by
  induction L generalizing g with
  | nil => simp
  | cons d L ih =>
    rw [List.foldl_cons, ih, foldl_writeDiag_range]
    by_cases hrc : r = c
    · subst hrc
      by_cases hL : ∃ d' ∈ L, ∃ i, i < dim ∧ r = 3 * d' + i
      · simp [hL, List.exists_mem_cons_iff]
      · by_cases hd : ∃ i ∈ List.range dim, r = 3 * d + i
        · simp [hL, hd, List.exists_mem_cons_iff]
        · simp [hL, hd, List.exists_mem_cons_iff]
    · simp [hrc]

theorem gamma_mat_apply (dim N : ℕ) (γ : F) (ds : List (List ℕ)) (r c : ℕ) :
    calculate_gamma_mat dim N γ ds r c
      = if r = c ∧ ∃ d ∈ ds.flatten, ∃ i ∈ List.range dim, r = 3 * d + i then γ
        else 0 := by
  unfold calculate_gamma_mat
  rw [foldl_gamma_writes]
  rfl

/-- C1 (counterexample): at `dim = 2`, `N = 4`, `gamma = 5`,
`drivers = [[0], [1]]` — a nonempty driver set whose indices are valid for
the mass vector — the builder writes `gamma` at position `(4, 4)`, although
`4` is not of the form `dim*idx + c` for any driven index `idx` and
component `c < dim`; so the matrix is not exactly zero away from the claimed
driven positions and the claim fails for `dim ≠ 3`. -/
theorem gamma_mat_dim2_counterexample :
    calculate_gamma_mat 2 4 (5 : ℚ) [[0], [1]] 4 4 ≠ 0 ∧
      ∀ d ∈ ([[0], [1]] : List (List ℕ)).flatten, ∀ c < 2, 2 * d + c ≠ 4 := by
  constructor
  · decide
  · decide

/-- C1 (amended): the builder hard-codes the stride `3` (`gmat[3*driver + i,
3*driver + i] = gamma`), so for `dim = 3` — where `3*idx + c` and
`dim*idx + c` coincide — the claim holds: the result is diagonal, equal to
`gamma` exactly at `(3*idx + c, 3*idx + c)` for a driven index `idx` and
component `c < 3`, zero everywhere else, and driver lists with the same
members (in particular, with duplicated driver indices) produce the same
matrix. -/
theorem gamma_mat_stride3 (N : ℕ) (γ : F) (ds ds' : List (List ℕ))
    (r c : ℕ) :
    calculate_gamma_mat 3 N γ ds r c
        = (if r = c ∧ ∃ d ∈ ds.flatten, ∃ i ∈ List.range 3, r = 3 * d + i then γ
           else 0) ∧
      ((∀ x, x ∈ ds.flatten ↔ x ∈ ds'.flatten) →
        calculate_gamma_mat 3 N γ ds = calculate_gamma_mat 3 N γ ds') := by
  refine ⟨gamma_mat_apply 3 N γ ds r c, fun hmem => ?_⟩
  funext r' c'
  rw [gamma_mat_apply, gamma_mat_apply]
  simp only [hmem]

/-- Witness for `gamma_mat_stride3` at `N = 2`, `gamma = 7`, the duplicated
driver list `[[0], [0, 0]]` versus `[[0]]`, and entry `(3, 3)`. -/
theorem gamma_mat_stride3_witness :
    (calculate_gamma_mat 3 2 (7 : ℚ) [[0], [0, 0]] 3 3
        = (if (3 : ℕ) = 3 ∧ ∃ d ∈ ([[0], [0, 0]] : List (List ℕ)).flatten,
              ∃ i ∈ List.range 3, 3 = 3 * d + i then (7 : ℚ)
           else 0)) ∧
      (∀ x, x ∈ ([[0], [0, 0]] : List (List ℕ)).flatten
          ↔ x ∈ ([[0]] : List (List ℕ)).flatten) ∧
      calculate_gamma_mat 3 2 (7 : ℚ) [[0], [0, 0]]
        = calculate_gamma_mat 3 2 (7 : ℚ) [[0]] :=
  ⟨(gamma_mat_stride3 2 (7 : ℚ) [[0], [0, 0]] [[0]] 3 3).1,
    by intro x; simp,
    (gamma_mat_stride3 2 (7 : ℚ) [[0], [0, 0]] [[0]] 3 3).2
      (by intro x; simp)⟩

/-- C9: `np.diag(np.repeat(m, dim))` is the diagonal matrix in which each
mass `m[a]` occupies the `dim` consecutive diagonal positions `dim*a + c`
for `c < dim`, and every off-diagonal entry is zero. -/
theorem massMatrix_repeats_diag (dim : ℕ) (m : ℕ → F) (a c : ℕ)
    (hdim : 1 ≤ dim) (hc : c < dim) :
    massMatrix dim m (dim * a + c) (dim * a + c) = m a ∧
      ∀ r s, r ≠ s → massMatrix dim m r s = 0 := by
  constructor
  · have h1 : (dim * a + c) / dim = a := by
      rw [Nat.mul_add_div (by omega : 0 < dim), Nat.div_eq_of_lt hc]
      omega
    simp [massMatrix, npDiag, npRepeat, h1]
  · intro r s hrs
    simp [massMatrix, npDiag, hrs]

/-- Witness for `massMatrix_repeats_diag` at `dim = 2`, `m[t] = t + 1`,
`a = 1`, `c = 1`. -/
theorem massMatrix_repeats_diag_witness :
    ((1 : ℕ) ≤ 2 ∧ (1 : ℕ) < 2) ∧
      (massMatrix 2 (fun t => (t : ℚ) + 1) (2 * 1 + 1) (2 * 1 + 1)
          = (fun t => (t : ℚ) + 1) 1 ∧
        ∀ r s, r ≠ s → massMatrix 2 (fun t => (t : ℚ) + 1) r s = 0) :=
  ⟨by decide,
    massMatrix_repeats_diag 2 (fun t => (t : ℚ) + 1) 1 1 (by decide)
      (by decide)⟩

theorem valtermMat_antisymm (val : ℕ → F) (r c : ℕ) :
    valtermMat val r c = -valtermMat val c r := by
  unfold valtermMat trueDivideReg
  by_cases h : val c + val r = 0
  · rw [if_pos h, if_pos (by rwa [add_comm])]
    ring
  · rw [if_neg h, if_neg (by rwa [add_comm])]
    rw [add_comm (val r) (val c)]
    ring

theorem list_sum_map_neg (l : List ℕ) (f : ℕ → F) :
    (l.map fun d => -(f d)).sum = -((l.map f).sum) := by
  induction l with
  | nil => simp
  | cons d l ih =>
    rw [List.map_cons, List.sum_cons, List.map_cons, List.sum_cons, ih]
    ring

/-- C3: the valterm matrix entry for the eigenvalue pair `(sigma, tau)` is
the quotient `(val[sigma] - val[tau]) / (val[sigma] + val[tau])` whenever the
denominator is nonzero, and exactly `0` whenever the denominator vanishes
(the only non-finite case in exact arithmetic); consequently the whole
`termArr` summand of that mode pair in the flux sum is exactly `0`.  The
substitution is a total operation — no error is raised or propagated. -/
theorem valterm_regularized (val : ℕ → F) (sigma tau i j idim jdim d : ℕ)
    (vec coeff kMatrix : ℕ → ℕ → F) :
    (val sigma + val tau = 0 → valtermMat val tau sigma = 0) ∧
      (val sigma + val tau ≠ 0 →
        valtermMat val tau sigma
          = (val sigma - val tau) / (val sigma + val tau)) ∧
      (val sigma + val tau = 0 →
        powerTermArr i j idim jdim d val vec coeff kMatrix tau sigma = 0) := by
  refine ⟨fun h => ?_, fun h => ?_, fun h => ?_⟩
  · simp [valtermMat, trueDivideReg, h]
  · simp [valtermMat, trueDivideReg, h]
  · simp [powerTermArr, valtermMat, trueDivideReg, h]

/-- Witness for `valterm_regularized` with `val = (1, -1, ...)`, so that
`val[0] + val[1] = 0`. -/
theorem valterm_regularized_witness :
    valtermMat (fun t => if t = 0 then (1 : ℚ) else -1) 1 0 = 0 ∧
      powerTermArr 0 0 0 0 0 (fun t => if t = 0 then (1 : ℚ) else -1)
        (fun _ _ => 1) (fun _ _ => 1) (fun _ _ => 1) 1 0 = 0 :=
  ⟨(valterm_regularized (fun t => if t = 0 then (1 : ℚ) else -1) 0 1 0 0 0 0 0
      (fun _ _ => 1) (fun _ _ => 1) (fun _ _ => 1)).1 (by norm_num),
    (valterm_regularized (fun t => if t = 0 then (1 : ℚ) else -1) 0 1 0 0 0 0 0
      (fun _ _ => 1) (fun _ _ => 1) (fun _ _ => 1)).2.2 (by norm_num)⟩

/-- C4: for `dim = 3` the vectorized flux equals the claimed quintuple sum —
over component pairs, over the atoms of the second driver group
`driverList[1]`, and over all mode pairs `(sigma, tau)` — of
`kMatrix[3i+idim, 3j+jdim] * (coeff[σ,3d]+coeff[σ,3d+1]+coeff[σ,3d+2]) *
(coeff[τ,3d]+coeff[τ,3d+1]+coeff[τ,3d+2]) * vec[3i+idim,σ] * vec[3j+jdim,τ]`
times the regularized valterm of `(σ, τ)`; and the first driver group is
never read: replacing it leaves the result unchanged. -/
theorem power_formula_dim3 (i j n : ℕ) (val : ℕ → F)
    (vec coeff kMat : ℕ → ℕ → F) (g0 g0' g1 : List ℕ)
    (rest : List (List ℕ)) :
    calculate_power i j 3 n val vec coeff kMat (g0 :: g1 :: rest)
        = (∑ idim ∈ Finset.range 3, ∑ jdim ∈ Finset.range 3,
            (g1.map fun d =>
              ∑ sigma ∈ Finset.range n, ∑ tau ∈ Finset.range n,
                kMat (3 * i + idim) (3 * j + jdim)
                  * (coeff sigma (3 * d) + coeff sigma (3 * d + 1)
                      + coeff sigma (3 * d + 2))
                  * (coeff tau (3 * d) + coeff tau (3 * d + 1)
                      + coeff tau (3 * d + 2))
                  * vec (3 * i + idim) sigma * vec (3 * j + jdim) tau
                  * valtermMat val tau sigma).sum) ∧
      calculate_power i j 3 n val vec coeff kMat (g0 :: g1 :: rest)
        = calculate_power i j 3 n val vec coeff kMat (g0' :: g1 :: rest) := by
  constructor
  · unfold calculate_power
    refine Finset.sum_congr rfl fun idim _ =>
      Finset.sum_congr rfl fun jdim _ => ?_
    have hg : (g0 :: g1 :: rest).getD 1 [] = g1 := rfl
    rw [hg]
    congr 1
    congr 1
    funext d
    unfold npSum powerTermArr
    exact Finset.sum_comm
  · rfl

theorem power_antisymm_key (i j idim jdim n : ℕ) (val : ℕ → F)
    (vec coeff kMat : ℕ → ℕ → F) (l : List ℕ)
    (hsym : ∀ a b, kMat a b = kMat b a) :
    (l.map fun d =>
        npSum n (powerTermArr j i idim jdim d val vec coeff kMat)).sum
      = -((l.map fun d =>
          npSum n (powerTermArr i j jdim idim d val vec coeff kMat)).sum) := by
  rw [← list_sum_map_neg]
  congr 1
  congr 1
  funext d
  unfold npSum
  calc
    ∑ r ∈ Finset.range n, ∑ c ∈ Finset.range n,
        powerTermArr j i idim jdim d val vec coeff kMat r c
      = ∑ r ∈ Finset.range n, ∑ c ∈ Finset.range n,
          -(powerTermArr i j jdim idim d val vec coeff kMat c r) := by
        refine Finset.sum_congr rfl fun r _ =>
          Finset.sum_congr rfl fun c _ => ?_
        unfold powerTermArr
        rw [hsym (3 * i + jdim) (3 * j + idim), valtermMat_antisymm val c r]
        ring
    _ = ∑ c ∈ Finset.range n, ∑ r ∈ Finset.range n,
          -(powerTermArr i j jdim idim d val vec coeff kMat c r) :=
        Finset.sum_comm
    _ = -(∑ r ∈ Finset.range n, ∑ c ∈ Finset.range n,
          powerTermArr i j jdim idim d val vec coeff kMat r c) := by
        simp [Finset.sum_neg_distrib]

/-- C5: for a symmetric Hessian, swapping a crossing pair negates the flux:
`_calculate_power(j, i, ...) = -_calculate_power(i, j, ...)` in exact
arithmetic, by antisymmetry of the regularized
`(val[σ] - val[τ])/(val[σ] + val[τ])` kernel. -/
theorem power_antisymm (i j dim n : ℕ) (val : ℕ → F)
    (vec coeff kMat : ℕ → ℕ → F) (ds : List (List ℕ))
    (hsym : ∀ a b, kMat a b = kMat b a) :
    calculate_power j i dim n val vec coeff kMat ds
      = -calculate_power i j dim n val vec coeff kMat ds := by
  unfold calculate_power
  calc
    ∑ idim ∈ Finset.range dim, ∑ jdim ∈ Finset.range dim,
        ((ds.getD 1 []).map fun d =>
          npSum n (powerTermArr j i idim jdim d val vec coeff kMat)).sum
      = ∑ idim ∈ Finset.range dim, ∑ jdim ∈ Finset.range dim,
          -(((ds.getD 1 []).map fun d =>
            npSum n (powerTermArr i j jdim idim d val vec coeff kMat)).sum) :=
        Finset.sum_congr rfl fun idim _ =>
          Finset.sum_congr rfl fun jdim _ =>
            power_antisymm_key i j idim jdim n val vec coeff kMat _ hsym
    _ = -(∑ idim ∈ Finset.range dim, ∑ jdim ∈ Finset.range dim,
          ((ds.getD 1 []).map fun d =>
            npSum n (powerTermArr i j jdim idim d val vec coeff kMat)).sum) := by
        simp [Finset.sum_neg_distrib]
    _ = -(∑ jdim ∈ Finset.range dim, ∑ idim ∈ Finset.range dim,
          ((ds.getD 1 []).map fun d =>
            npSum n (powerTermArr i j jdim idim d val vec coeff kMat)).sum) := by
        rw [Finset.sum_comm]

/-- Witness for `power_antisymm` with the symmetric matrix
`kMat[a, b] = a + b` on a small concrete instance. -/
theorem power_antisymm_witness :
    (∀ a b : ℕ, ((a : ℚ) + b) = ((b : ℚ) + a)) ∧
      calculate_power 1 0 1 2 (fun t => (t : ℚ) + 1) (fun _ _ => 1)
          (fun _ _ => 1) (fun a b => (a : ℚ) + b) [[0], [0]]
        = -calculate_power 0 1 1 2 (fun t => (t : ℚ) + 1) (fun _ _ => 1)
            (fun _ _ => 1) (fun a b => (a : ℚ) + b) [[0], [0]] :=
  ⟨fun a b => add_comm _ _,
    power_antisymm 0 1 1 2 (fun t => (t : ℚ) + 1) (fun _ _ => 1)
      (fun _ _ => 1) (fun a b => (a : ℚ) + b) [[0], [0]]
      (fun a b => add_comm _ _)⟩

/-- C10: with `dim = 3`, when `len(val)` is even (it is `2*dim*N` in every
call), the bond indices address rows inside the slice `vec[:n,:]`, and no
pair of eigenvalues sums to zero (so neither the regularization of the
vectorized path nor the divide-by-zero branch of the loop is reached), the
scalar nested-loop flux `_calculate_power_loop` equals the vectorized
`_calculate_power` in exact arithmetic. -/
theorem power_loop_eq_power (i j nval : ℕ) (val : ℕ → F)
    (vec coeff kMat : ℕ → ℕ → F) (ds : List (List ℕ)) (heven : nval % 2 = 0)
    (hi : 3 * i + 2 < nval / 2) (hj : 3 * j + 2 < nval / 2)
    (hval : ∀ sigma ∈ Finset.range nval, ∀ tau ∈ Finset.range nval,
      val sigma + val tau ≠ 0) :
    calculate_power_loop i j 3 nval val vec coeff kMat ds
      = calculate_power i j 3 nval val vec coeff kMat ds := by
  unfold calculate_power_loop calculate_power
  have h2 : 2 * (nval / 2) = nval := by omega
  refine Finset.sum_congr rfl fun idim hidim =>
    Finset.sum_congr rfl fun jdim hjdim => ?_
  congr 1
  congr 1
  funext d
  rw [h2]
  unfold npSum
  rw [Finset.sum_comm]
  refine Finset.sum_congr rfl fun tau htau =>
    Finset.sum_congr rfl fun sigma hsigma => ?_
  have hvs : val sigma + val tau ≠ 0 :=
    hval sigma hsigma tau htau
  have hi' : 3 * i + idim < nval / 2 := by
    have := Finset.mem_range.mp hidim
    omega
  have hj' : 3 * j + jdim < nval / 2 := by
    have := Finset.mem_range.mp hjdim
    omega
  unfold powerTermArr valtermMat trueDivideReg rowslice
  rw [if_pos hi', if_pos hj', if_neg hvs]
  ring

/-- Witness for `power_loop_eq_power` on a concrete 6-mode instance with
`val[t] = t + 1`, for which no two eigenvalues sum to zero. -/
theorem power_loop_eq_power_witness :
    ((6 : ℕ) % 2 = 0 ∧ 3 * 0 + 2 < 6 / 2 ∧
      ∀ sigma ∈ Finset.range 6, ∀ tau ∈ Finset.range 6,
        ((sigma : ℚ) + 1) + ((tau : ℚ) + 1) ≠ 0) ∧
      calculate_power_loop 0 0 3 6 (fun t => (t : ℚ) + 1) (fun _ _ => 1)
          (fun _ _ => 1) (fun _ _ => 1) [[0], [0]]
        = calculate_power 0 0 3 6 (fun t => (t : ℚ) + 1) (fun _ _ => 1)
            (fun _ _ => 1) (fun _ _ => 1) [[0], [0]] :=
  ⟨⟨by decide, by decide, by intro sigma _ tau _; positivity⟩,
    power_loop_eq_power 0 0 6 (fun t => (t : ℚ) + 1) (fun _ _ => 1)
      (fun _ _ => 1) (fun _ _ => 1) [[0], [0]] (by decide) (by decide)
      (by decide) (by intro sigma _ tau _; positivity)⟩

/-- C7: the concatenations in `_calculate_thermal_evec` produce exactly the
`2N × 2N` block matrices `left = [[0, I], [K, G]]` and
`right = [[I, 0], [0, -M]]`, and the function returns whatever complex
eigenpairs the external generalized eigensolver computes for this pair of
matrices (`left·v = λ·right·v`). -/
theorem thermal_evec_blocks (N : ℕ) (K G M : ℕ → ℕ → F) (eig : EigSolver F)
    (r c : ℕ) :
    (r < N → c < N → thermalEvecLeft N K G r c = 0) ∧
      (r < N → N ≤ c → c < 2 * N →
        thermalEvecLeft N K G r c = (if r = c - N then 1 else 0)) ∧
      (N ≤ r → r < 2 * N → c < N →
        thermalEvecLeft N K G r c = K (r - N) c) ∧
      (N ≤ r → r < 2 * N → N ≤ c → c < 2 * N →
        thermalEvecLeft N K G r c = G (r - N) (c - N)) ∧
      (r < N → c < N →
        thermalEvecRight N M r c = (if r = c then 1 else 0)) ∧
      (r < N → N ≤ c → c < 2 * N → thermalEvecRight N M r c = 0) ∧
      (N ≤ r → r < 2 * N → c < N → thermalEvecRight N M r c = 0) ∧
      (N ≤ r → r < 2 * N → N ≤ c → c < 2 * N →
        thermalEvecRight N M r c = -(M (r - N) (c - N))) ∧
      calculate_thermal_evec N K G M eig
        = eig N (thermalEvecLeft N K G) (thermalEvecRight N M) := by
  refine ⟨?_, ?_, ?_, ?_, ?_, ?_, ?_, ?_, rfl⟩
  · intro h1 h2
    simp [thermalEvecLeft, vconcat, hconcat, zerosM, h1, h2]
  · intro h1 h2 _
    have h2' : ¬ c < N := by omega
    simp [thermalEvecLeft, vconcat, hconcat, identityM, h1, h2']
  · intro h1 _ h3
    have h1' : ¬ r < N := by omega
    simp [thermalEvecLeft, vconcat, hconcat, h1', h3]
  · intro h1 _ h3 _
    have h1' : ¬ r < N := by omega
    have h3' : ¬ c < N := by omega
    simp [thermalEvecLeft, vconcat, hconcat, h1', h3']
  · intro h1 h2
    simp [thermalEvecRight, vconcat, hconcat, identityM, h1, h2]
  · intro h1 h2 _
    have h2' : ¬ c < N := by omega
    simp [thermalEvecRight, vconcat, hconcat, zerosM, h1, h2']
  · intro h1 _ h3
    have h1' : ¬ r < N := by omega
    simp [thermalEvecRight, vconcat, hconcat, zerosM, h1', h3]
  · intro h1 _ h3 _
    have h1' : ¬ r < N := by omega
    have h3' : ¬ c < N := by omega
    simp [thermalEvecRight, vconcat, hconcat, h1', h3']

/-- Witness for `thermal_evec_blocks` at `N = 1` with constant matrices
`K = 5`, `G = 7`, `M = 11`: the `K`-block entry, the `-M`-block entry, and
the delegation to the external solver. -/
theorem thermal_evec_blocks_witness :
    thermalEvecLeft 1 (fun _ _ => (5 : ℚ)) (fun _ _ => 7) 1 0
        = (fun _ _ => (5 : ℚ)) 0 0 ∧
      thermalEvecRight 1 (fun _ _ => (11 : ℚ)) 1 1
        = -((fun _ _ => (11 : ℚ)) 0 0) ∧
      calculate_thermal_evec 1 (fun _ _ => (5 : ℚ)) (fun _ _ => 7)
          (fun _ _ => 11) (fun _ _ _ => (fun _ => 0, fun _ _ => 0))
        = (fun _ _ _ => ((fun _ => (0 : ℚ)), fun _ _ => (0 : ℚ))) 1
            (thermalEvecLeft 1 (fun _ _ => (5 : ℚ)) (fun _ _ => 7))
            (thermalEvecRight 1 (fun _ _ => (11 : ℚ))) :=
  ⟨(thermal_evec_blocks 1 (fun _ _ => (5 : ℚ)) (fun _ _ => 7)
      (fun _ _ => 11) (fun _ _ _ => (fun _ => 0, fun _ _ => 0)) 1
      0).2.2.1 (by decide) (by decide) (by decide),
    (thermal_evec_blocks 1 (fun _ _ => (5 : ℚ)) (fun _ _ => 7)
      (fun _ _ => 11) (fun _ _ _ => (fun _ => 0, fun _ _ => 0)) 1
      1).2.2.2.2.2.2.2.1 (by decide) (by decide) (by decide) (by decide),
    (thermal_evec_blocks 1 (fun _ _ => (5 : ℚ)) (fun _ _ => 7)
      (fun _ _ => 11) (fun _ _ _ => (fun _ => 0, fun _ _ => 0)) 1
      1).2.2.2.2.2.2.2.2⟩

theorem linalgSolve_sound (n p : ℕ) (A B : ℕ → ℕ → F)
    (hdet : (toFin n A).det ≠ 0) (r c : ℕ) (hr : r < n) (hc : c < p) :
    ∑ s ∈ Finset.range n, A r s * linalgSolveVal n p A B s c
      = B r c := by
  have hmul :
      toFin n A
          * (((toFin n A).det)⁻¹
            • ((toFin n A).adjugate * toFinRect n p B))
        = toFinRect n p B := by
    calc
      toFin n A
          * (((toFin n A).det)⁻¹
            • ((toFin n A).adjugate * toFinRect n p B))
        = ((toFin n A).det)⁻¹
            • (toFin n A * ((toFin n A).adjugate * toFinRect n p B)) := by
          rw [Matrix.mul_smul]
      _ = ((toFin n A).det)⁻¹
            • ((toFin n A * (toFin n A).adjugate) * toFinRect n p B) := by
          rw [Matrix.mul_assoc]
      _ = ((toFin n A).det)⁻¹
            • (((toFin n A).det • (1 : Matrix (Fin n) (Fin n) F))
              * toFinRect n p B) := by
          rw [Matrix.mul_adjugate]
      _ = ((toFin n A).det)⁻¹ • ((toFin n A).det • toFinRect n p B) := by
          rw [Matrix.smul_mul, Matrix.one_mul]
      _ = (((toFin n A).det)⁻¹ * (toFin n A).det) • toFinRect n p B := by
          rw [smul_smul]
      _ = toFinRect n p B := by
          rw [inv_mul_cancel₀ hdet, one_smul]
  have hpt : ∀ s : Fin n,
      A r s.val * linalgSolveVal n p A B s.val c
        = toFin n A ⟨r, hr⟩ s
            * (((toFin n A).det)⁻¹
              • ((toFin n A).adjugate * toFinRect n p B)) s ⟨c, hc⟩ := by
    intro s
    unfold linalgSolveVal
    rw [dif_pos s.isLt, dif_pos hc]
    rfl
  rw [← Fin.sum_univ_eq_sum_range]
  rw [Finset.sum_congr rfl fun s _ => hpt s]
  rw [← Matrix.mul_apply, hmul]
  rfl

/-- C6: `_calculate_coeff` builds the `2N × 2N` system whose top `N` rows
are the displacement block `vec[:N,:]`, whose bottom `N` rows scale that
block per mode column by the mass-times-eigenvalue row sum plus the damping
row sum, and whose right-hand side stacks `N` zero rows over the `N × N`
identity; a successful solve returns the `2N × N` matrix `X` with
`A·X = B`, and a singular `A` is an error propagated to the caller. -/
theorem coeff_solver (N : ℕ) (val : ℕ → F) (vec massMat gMat : ℕ → ℕ → F) :
    (∀ r c, r < N → coeffA N val vec massMat gMat r c = vec r c) ∧
      (∀ r c, N ≤ r → r < 2 * N →
        coeffA N val vec massMat gMat r c
          = vec (r - N) c
              * ((∑ s ∈ Finset.range N, massMat (r - N) s) * val c
                + ∑ s ∈ Finset.range N, gMat (r - N) s)) ∧
      (∀ r c, coeffB N r c
        = if r < N then (0 : F) else if r - N = c then 1 else 0) ∧
      ((toFin (2 * N) (coeffA N val vec massMat gMat)).det ≠ 0 →
        calculate_coeff N val vec massMat gMat
            = Except.ok (linalgSolveVal (2 * N) N
                (coeffA N val vec massMat gMat) (coeffB N)) ∧
          ∀ r c, r < 2 * N → c < N →
            ∑ s ∈ Finset.range (2 * N),
              coeffA N val vec massMat gMat r s
                * linalgSolveVal (2 * N) N (coeffA N val vec massMat gMat)
                    (coeffB N) s c
              = coeffB N r c) ∧
      ((toFin (2 * N) (coeffA N val vec massMat gMat)).det = 0 →
        calculate_coeff N val vec massMat gMat
          = Except.error "singular matrix") := by
  refine ⟨?_, ?_, ?_, fun hdet => ⟨?_, ?_⟩, fun hdet => ?_⟩
  · intro r c h
    simp [coeffA, vconcat, rowslice, h]
  · intro r c h1 h2
    have h1' : ¬ r < N := by omega
    have hrN : r - N < N := by omega
    simp only [coeffA, vconcat, rowslice, matmulN, if_neg h1', if_pos hrN]
    rw [Finset.sum_mul]
    simp [mul_comm]
  · intro r c
    simp [coeffB, vconcat, zerosM, identityM]
  · unfold calculate_coeff linalgSolve
    rw [if_neg hdet]
  · intro r c hr hc
    exact linalgSolve_sound (2 * N) N _ _ hdet r c hr hc
  · unfold calculate_coeff linalgSolve
    rw [if_pos hdet]

/-- Witness for `coeff_solver` at `N = 1`, `val = (1, 2)`, an
upper-triangular `vec`, unit mass and damping `10`: the system matrix is
`[[1, 1], [11, 12]]` with determinant `1`, and the returned coefficients
solve row `1` of `A·X = B`. -/
theorem coeff_solver_witness :
    (toFin 2 (coeffA 1 (fun c => (c : ℚ) + 1)
        (fun r c => if r ≤ c then (1 : ℚ) else 0)
        (fun r c => if r = c then (1 : ℚ) else 0)
        (fun r c => if r = c then (10 : ℚ) else 0))).det ≠ 0 ∧
      coeffA 1 (fun c => (c : ℚ) + 1)
          (fun r c => if r ≤ c then (1 : ℚ) else 0)
          (fun r c => if r = c then (1 : ℚ) else 0)
          (fun r c => if r = c then (10 : ℚ) else 0) 0 1
        = (fun r c => if r ≤ c then (1 : ℚ) else 0) 0 1 ∧
      coeffA 1 (fun c => (c : ℚ) + 1)
          (fun r c => if r ≤ c then (1 : ℚ) else 0)
          (fun r c => if r = c then (1 : ℚ) else 0)
          (fun r c => if r = c then (10 : ℚ) else 0) 1 1
        = (fun r c => if r ≤ c then (1 : ℚ) else 0) 0 1
            * ((∑ s ∈ Finset.range 1,
                (fun r c => if r = c then (1 : ℚ) else 0) 0 s)
                  * ((fun c => (c : ℚ) + 1) 1)
              + ∑ s ∈ Finset.range 1,
                  (fun r c => if r = c then (10 : ℚ) else 0) 0 s) ∧
      calculate_coeff 1 (fun c => (c : ℚ) + 1)
          (fun r c => if r ≤ c then (1 : ℚ) else 0)
          (fun r c => if r = c then (1 : ℚ) else 0)
          (fun r c => if r = c then (10 : ℚ) else 0)
        = Except.ok (linalgSolveVal 2 1
            (coeffA 1 (fun c => (c : ℚ) + 1)
              (fun r c => if r ≤ c then (1 : ℚ) else 0)
              (fun r c => if r = c then (1 : ℚ) else 0)
              (fun r c => if r = c then (10 : ℚ) else 0)) (coeffB 1)) ∧
      ∑ s ∈ Finset.range 2,
          coeffA 1 (fun c => (c : ℚ) + 1)
              (fun r c => if r ≤ c then (1 : ℚ) else 0)
              (fun r c => if r = c then (1 : ℚ) else 0)
              (fun r c => if r = c then (10 : ℚ) else 0) 1 s
            * linalgSolveVal 2 1
                (coeffA 1 (fun c => (c : ℚ) + 1)
                  (fun r c => if r ≤ c then (1 : ℚ) else 0)
                  (fun r c => if r = c then (1 : ℚ) else 0)
                  (fun r c => if r = c then (10 : ℚ) else 0)) (coeffB 1) s 0
        = coeffB 1 1 0 := by
  have hdet : (toFin 2 (coeffA 1 (fun c => (c : ℚ) + 1)
      (fun r c => if r ≤ c then (1 : ℚ) else 0)
      (fun r c => if r = c then (1 : ℚ) else 0)
      (fun r c => if r = c then (10 : ℚ) else 0))).det ≠ 0 := by
    rw [Matrix.det_fin_two]
    simp [toFin, coeffA, vconcat, rowslice, matmulN]
  refine ⟨hdet, ?_, ?_, ?_, ?_⟩
  · exact (coeff_solver 1 (fun c => (c : ℚ) + 1)
      (fun r c => if r ≤ c then (1 : ℚ) else 0)
      (fun r c => if r = c then (1 : ℚ) else 0)
      (fun r c => if r = c then (10 : ℚ) else 0)).1 0 1 (by decide)
  · exact (coeff_solver 1 (fun c => (c : ℚ) + 1)
      (fun r c => if r ≤ c then (1 : ℚ) else 0)
      (fun r c => if r = c then (1 : ℚ) else 0)
      (fun r c => if r = c then (10 : ℚ) else 0)).2.1 1 1 (by decide)
      (by decide)
  · exact ((coeff_solver 1 (fun c => (c : ℚ) + 1)
      (fun r c => if r ≤ c then (1 : ℚ) else 0)
      (fun r c => if r = c then (1 : ℚ) else 0)
      (fun r c => if r = c then (10 : ℚ) else 0)).2.2.2.1 hdet).1
  · exact ((coeff_solver 1 (fun c => (c : ℚ) + 1)
      (fun r c => if r ≤ c then (1 : ℚ) else 0)
      (fun r c => if r = c then (1 : ℚ) else 0)
      (fun r c => if r = c then (10 : ℚ) else 0)).2.2.2.1 hdet).2 1 0
      (by decide) (by decide)

/-- C2: whenever `len(k)` is not an exact multiple of `len(m)`, the entry
point fails with an error instead of returning a conductivity computed from
the truncated ratio `dim = len(k)//len(m)`: either the gamma-matrix writes
go out of bounds (`IndexError`) or, at the latest, the concatenation
`np.concatenate((K, G), axis=1)` inside the eigensolver sees `len(k)` rows
against `dim*len(m)` rows (`ValueError`). -/
theorem kappa_dim_mismatch (mn kn : ℕ) (m : ℕ → F) (k : ℕ → ℕ → F)
    (drivers : List (List ℕ)) (crossings : List (ℕ × ℕ)) (gamma : F)
    (eig : EigSolver F) (hmn : 1 ≤ mn) (hmod : kn % mn ≠ 0) :
    ∃ e, kappa mn kn m k drivers crossings gamma eig = Except.error e := by
  cases hg : gammaWritesOk (kn / mn) mn drivers with
  | false =>
    refine ⟨"index out of bounds", ?_⟩
    unfold kappa
    rw [if_pos (by simp [hg])]
  | true =>
    have hneq : kn ≠ kn / mn * mn := by
      intro heq
      exact hmod (by rw [heq]; exact Nat.mul_mod_left _ _)
    refine ⟨"dimension mismatch", ?_⟩
    unfold kappa
    rw [if_neg (by simp [hg]), if_pos hneq]

/-- Witness for `kappa_dim_mismatch` with `len(m) = 2`, `len(k) = 5`. -/
theorem kappa_dim_mismatch_witness :
    ((1 : ℕ) ≤ 2 ∧ (5 : ℕ) % 2 ≠ 0) ∧
      ∃ e, kappa 2 5 (fun _ => (1 : ℚ)) (fun _ _ => 1) [[0], [0]] []
          10 (fun _ _ _ => (fun _ => 0, fun _ _ => 0)) = Except.error e :=
  ⟨by decide,
    kappa_dim_mismatch 2 5 (fun _ => (1 : ℚ)) (fun _ _ => 1) [[0], [0]] []
      10 (fun _ _ _ => (fun _ => 0, fun _ _ => 0)) (by decide) (by decide)⟩

theorem foldl_add_eq_sum (f : ℕ × ℕ → F) (l : List (ℕ × ℕ)) (a : F) :
    l.foldl (fun acc ij => acc + f ij) a = a + (l.map f).sum := by
  induction l generalizing a with
  | nil => simp
  | cons x l ih =>
    rw [List.foldl_cons, ih, List.map_cons, List.sum_cons]
    ring

/-- C8: when the shape guards pass and the coefficient system solves, the
entry point returns exactly the sum of the per-crossing flux values, in the
order given and with no normalization; hence it returns `0.0` for an empty
crossings list and is additive over concatenation of crossing lists. -/
theorem kappa_sums_crossings (mn kn : ℕ) (m : ℕ → F) (k : ℕ → ℕ → F)
    (drivers : List (List ℕ)) (gamma : F) (eig : EigSolver F)
    (crossings xs ys : List (ℕ × ℕ)) (X : ℕ → ℕ → F)
    (hok : gammaWritesOk (kn / mn) mn drivers = true)
    (hdim : kn = kn / mn * mn)
    (hcoeff : kappaCoeff mn kn m k drivers gamma eig = Except.ok X) :
    kappa mn kn m k drivers crossings gamma eig
        = Except.ok ((crossings.map fun ij =>
            calculate_power ij.1 ij.2 (kn / mn) (2 * (kn / mn * mn))
              (kappaEigData mn kn m k drivers gamma eig).1
              (kappaEigData mn kn m k drivers gamma eig).2 X k
              drivers).sum) ∧
      kappa mn kn m k drivers [] gamma eig = Except.ok 0 ∧
      (∀ a b : F, kappa mn kn m k drivers xs gamma eig = Except.ok a →
        kappa mn kn m k drivers ys gamma eig = Except.ok b →
        kappa mn kn m k drivers (xs ++ ys) gamma eig
          = Except.ok (a + b)) := by
  have hrun : ∀ cs : List (ℕ × ℕ),
      kappa mn kn m k drivers cs gamma eig
        = Except.ok ((cs.map fun ij =>
            calculate_power ij.1 ij.2 (kn / mn) (2 * (kn / mn * mn))
              (kappaEigData mn kn m k drivers gamma eig).1
              (kappaEigData mn kn m k drivers gamma eig).2 X k
              drivers).sum) := by
    intro cs
    unfold kappa
    rw [if_neg (not_not_intro hok), if_neg (not_not_intro hdim), hcoeff]
    show Except.ok
        (cs.foldl
          (fun acc ij =>
            acc + calculate_power ij.1 ij.2 (kn / mn) (2 * (kn / mn * mn))
              (kappaEigData mn kn m k drivers gamma eig).1
              (kappaEigData mn kn m k drivers gamma eig).2 X k drivers)
          0)
      = _
    rw [foldl_add_eq_sum, zero_add]
  refine ⟨hrun crossings, ?_, ?_⟩
  · rw [hrun []]
    rfl
  · intro a b ha hb
    rw [hrun xs, Except.ok.injEq] at ha
    rw [hrun ys, Except.ok.injEq] at hb
    rw [hrun (xs ++ ys), List.map_append, List.sum_append, ha, hb]

/-- Witness for `kappa_sums_crossings` on a one-atom, one-dimensional
concrete instance whose coefficient system `[[1, 1], [11, 12]]` solves:
the entry point returns `0` on an empty crossings list and the map-sum
formula on the duplicated crossing list `[(0,0), (0,0)]`. -/
theorem kappa_sums_crossings_witness :
    gammaWritesOk (1 / 1) 1 [[0], [0]] = true ∧
      (1 : ℕ) = 1 / 1 * 1 ∧
      kappaCoeff 1 1 (fun _ => (1 : ℚ)) (fun _ _ => 1) [[0], [0]] 10
          (fun _ _ _ =>
            (fun t => (t : ℚ) + 1, fun r c => if r ≤ c then (1 : ℚ) else 0))
        = Except.ok (linalgSolveVal (2 * 1) 1
            (coeffA 1 (fun t => (t : ℚ) + 1)
              (fun r c => if r ≤ c then (1 : ℚ) else 0)
              (massMatrix 1 fun _ => (1 : ℚ))
              (calculate_gamma_mat 1 1 10 [[0], [0]])) (coeffB 1)) ∧
      kappa 1 1 (fun _ => (1 : ℚ)) (fun _ _ => 1) [[0], [0]] [] 10
          (fun _ _ _ =>
            (fun t => (t : ℚ) + 1, fun r c => if r ≤ c then (1 : ℚ) else 0))
        = Except.ok 0 ∧
      kappa 1 1 (fun _ => (1 : ℚ)) (fun _ _ => 1) [[0], [0]]
          [(0, 0), (0, 0)] 10
          (fun _ _ _ =>
            (fun t => (t : ℚ) + 1, fun r c => if r ≤ c then (1 : ℚ) else 0))
        = Except.ok ((([(0, 0), (0, 0)] : List (ℕ × ℕ)).map fun ij =>
            calculate_power ij.1 ij.2 (1 / 1) (2 * (1 / 1 * 1))
              (fun t => (t : ℚ) + 1)
              (fun r c => if r ≤ c then (1 : ℚ) else 0)
              (linalgSolveVal (2 * 1) 1
                (coeffA 1 (fun t => (t : ℚ) + 1)
                  (fun r c => if r ≤ c then (1 : ℚ) else 0)
                  (massMatrix 1 fun _ => (1 : ℚ))
                  (calculate_gamma_mat 1 1 10 [[0], [0]])) (coeffB 1))
              (fun _ _ => 1) [[0], [0]]).sum) := by
  have hdet : (toFin (2 * 1) (coeffA 1 (fun t => (t : ℚ) + 1)
      (fun r c => if r ≤ c then (1 : ℚ) else 0)
      (massMatrix 1 fun _ => (1 : ℚ))
      (calculate_gamma_mat 1 1 10 [[0], [0]]))).det ≠ 0 := by
    rw [Matrix.det_fin_two]
    simp [toFin, coeffA, vconcat, rowslice, matmulN, massMatrix, npDiag,
      npRepeat, calculate_gamma_mat, writeDiag, zerosM]
  have hco : kappaCoeff 1 1 (fun _ => (1 : ℚ)) (fun _ _ => 1) [[0], [0]] 10
      (fun _ _ _ =>
        (fun t => (t : ℚ) + 1, fun r c => if r ≤ c then (1 : ℚ) else 0))
      = Except.ok (linalgSolveVal (2 * 1) 1
          (coeffA 1 (fun t => (t : ℚ) + 1)
            (fun r c => if r ≤ c then (1 : ℚ) else 0)
            (massMatrix 1 fun _ => (1 : ℚ))
            (calculate_gamma_mat 1 1 10 [[0], [0]])) (coeffB 1)) := by
    show calculate_coeff 1 (fun t => (t : ℚ) + 1)
        (fun r c => if r ≤ c then (1 : ℚ) else 0)
        (massMatrix 1 fun _ => (1 : ℚ))
        (calculate_gamma_mat 1 1 10 [[0], [0]]) = _
    unfold calculate_coeff linalgSolve
    rw [if_neg hdet]
  refine ⟨by decide, by decide, hco, ?_, ?_⟩
  · exact (kappa_sums_crossings 1 1 (fun _ => (1 : ℚ)) (fun _ _ => 1)
      [[0], [0]] 10
      (fun _ _ _ =>
        (fun t => (t : ℚ) + 1, fun r c => if r ≤ c then (1 : ℚ) else 0))
      [] [] [] _ (by decide) (by decide) hco).2.1
  · exact (kappa_sums_crossings 1 1 (fun _ => (1 : ℚ)) (fun _ _ => 1)
      [[0], [0]] 10
      (fun _ _ _ =>
        (fun t => (t : ℚ) + 1, fun r c => if r ≤ c then (1 : ℚ) else 0))
      [(0, 0), (0, 0)] [] [] _ (by decide) (by decide) hco).1

end Eflow
